import Mathlib

/-
Verification of the Static Source Graph & Resilient Artifact Extraction
Engine of `integrated_test_generator.py`.

The Python code is shallowly embedded: strings are Lean `String`s
(operated on through their underlying `List Char`), Python regular
expressions are interpreted by a small backtracking matcher
(`reMatch` / `reFindAll` / `reSearch`) over explicit pattern syntax
trees that transcribe the regex literals of the source, and the
file-system side effects of `_save_file` are modelled by an explicit
association-list store in which a save overwrites the previous content
of the same filename (as writing the same path does on disk).
All definitions are total and computable.
-/

/-! ### Basic character and list helpers -/

/-- Python `str.isspace` characters (ASCII range, which is all the
source ever feeds to `strip`). -/
def isPySpace (c : Char) : Bool :=
  c = ' ' || c = '\t' || c = '\n' || c = '\r' || c = '\x0b' || c = '\x0c'

/-- Python regex `\w` (ASCII range): letters, digits and underscore. -/
def isWordChar (c : Char) : Bool := c.isAlphanum || c = '_'

/-- Python `str.strip()` on a character list: drop whitespace from both
ends. -/
def pyStripL (l : List Char) : List Char :=
  ((l.dropWhile isPySpace).reverse.dropWhile isPySpace).reverse

/-- Python `str.strip()`. -/
def pyStrip (s : String) : String := String.mk (pyStripL s.data)

/-- Python `str.split('\n')`: split on every newline, keeping empty
pieces, so the result is always non-empty. -/
def splitOnNl : List Char → List (List Char)
  | [] => [[]]
  | c :: rest =>
    if c = '\n' then [] :: splitOnNl rest
    else
      let r := splitOnNl rest
      (c :: r.headD []) :: r.tail

/-- Python `str.split('\n')` at the `String` level. -/
def pyLines (s : String) : List String := (splitOnNl s.data).map String.mk

/-- Substring test: `pat` occurs somewhere in `hay` (Python `in`). -/
def containsL (hay pat : List Char) : Bool :=
  if pat.isPrefixOf hay then true
  else
    match hay with
    | [] => false
    | _ :: t => containsL t pat

/-- Python `pat in s` for strings. -/
def strContains (s pat : String) : Bool := containsL s.data pat.data

/-- Python `str.lower()` (ASCII). -/
def toLowerL (l : List Char) : List Char := l.map Char.toLower

/-- Index of the first occurrence of `pat` in `hay` (Python `str.find`,
with absence reported as `none` instead of `-1`). -/
def findSubIdx : List Char → List Char → Option Nat
  | hay, pat =>
    if pat.isPrefixOf hay then some 0
    else
      match hay with
      | [] => none
      | _ :: rest => (findSubIdx rest pat).map (· + 1)

/-- One fuelled step list for Python `str.replace`: scan left to right,
replacing non-overlapping occurrences.  The fuel is the length of the
scanned list, which is enough because every step consumes at least one
character (all patterns used by the source are non-empty). -/
def replaceGo (pat repl : List Char) : Nat → List Char → List Char
  | 0, s => s
  | Nat.succ n, s =>
    match s with
    | [] => []
    | c :: rest =>
      if !pat.isEmpty && pat.isPrefixOf (c :: rest) then
        repl ++ replaceGo pat repl n ((c :: rest).drop pat.length)
      else
        c :: replaceGo pat repl n rest

/-- Python `str.replace(pat, repl)`. -/
def pyReplace (s pat repl : String) : String :=
  String.mk (replaceGo pat.data repl.data s.data.length s.data)

/-- Keep the first occurrence of every element (Python
`list(dict.fromkeys(...))`); `seen` accumulates the elements already
emitted. -/
def dedupFirstAux [DecidableEq α] : List α → List α → List α
  | _, [] => []
  | seen, x :: rest =>
    if x ∈ seen then dedupFirstAux seen rest
    else x :: dedupFirstAux (x :: seen) rest

/-- Order-preserving de-duplication keeping first occurrences. -/
def dedupFirst [DecidableEq α] (l : List α) : List α := dedupFirstAux [] l

/-- Association-list update modelling a Python dict assignment (or a
file overwrite): an existing key keeps its position and gets the new
value, a new key is appended. -/
def setAssoc [DecidableEq α] : List (α × β) → α → β → List (α × β)
  | [], k, v => [(k, v)]
  | (k0, v0) :: rest, k, v =>
    if k0 = k then (k0, v) :: rest else (k0, v0) :: setAssoc rest k v

/-- Association-list lookup (first binding wins; with `setAssoc` keys
are unique so this is the binding). -/
def lookupAssoc [DecidableEq α] : List (α × β) → α → Option β
  | [], _ => none
  | (k0, v0) :: rest, k =>
    if k0 = k then some v0 else lookupAssoc rest k

/-- Value of the last pair with the given key, if any. -/
def lastAssoc [DecidableEq α] : List (α × β) → α → Option β
  | [], _ => none
  | (k0, v0) :: rest, k =>
    match lastAssoc rest k with
    | some v => some v
    | none => if k0 = k then some v0 else none

/-- Last element of a list, with a default (Python `lst[-1]`). -/
def lastD (d : α) : List α → α
  | [] => d
  | [x] => x
  | _ :: y :: rest => lastD d (y :: rest)

/-- Python `os.path.basename` for forward-slash paths: the part after
the last `/`. -/
def splitOnSlash : List Char → List (List Char)
  | [] => [[]]
  | c :: rest =>
    if c = '/' then [] :: splitOnSlash rest
    else
      let r := splitOnSlash rest
      (c :: r.headD []) :: r.tail

/-- Python `os.path.basename` on strings. -/
def basename (p : String) : String := String.mk (lastD [] (splitOnSlash p.data))

/-! ### A small backtracking regex matcher

Each Python regex literal of the source is transcribed into a `RE`
syntax tree below.  `reMatch` enumerates the match alternatives in the
exact preference order of Python's `re` engine (greedy quantifiers try
longer matches first, lazy ones shorter, alternation is left to right),
so taking the head of the alternative list reproduces `re.match`
semantics at a position, and `reFindAll` / `reSearch` reproduce
`re.findall` / `re.search` (leftmost match, then continue after the
consumed text).  `eos` is Python's `$` outside MULTILINE mode: end of
input or just before a final newline.  The `Nat` argument is fuel; it
is spent on every recursion step, and callers pass `4 * length + 64`,
which dominates the recursion depth of every pattern in this file
(pattern nesting depth plus at most two steps per consumed character
for the starred sub-patterns, all of which consume at least one
character per iteration). -/
inductive RE where
  | lit : List Char → RE
  | cls : (Char → Bool) → RE
  | seq : RE → RE → RE
  | alt : RE → RE → RE
  | starG : RE → RE
  | starL : RE → RE
  | grp : RE → RE
  | look : RE → RE
  | eos : RE

/-- All ways to match `re` against a prefix of `s`, in backtracking
preference order; each result is the remaining suffix together with the
captured groups so far (in opening order; no pattern in this file nests
groups). -/
def reMatch : Nat → RE → List Char → List (List Char) →
    List (List Char × List (List Char))
  | 0, _, _, _ => []
  | Nat.succ fuel, re, s, caps =>
    match re with
    | RE.lit p => if p.isPrefixOf s then [(s.drop p.length, caps)] else []
    | RE.cls f =>
      match s with
      | [] => []
      | c :: rest => if f c then [(rest, caps)] else []
    | RE.seq a b =>
      (reMatch fuel a s caps).flatMap (fun pr => reMatch fuel b pr.1 pr.2)
    | RE.alt a b => reMatch fuel a s caps ++ reMatch fuel b s caps
    | RE.starG r =>
      ((reMatch fuel r s caps).flatMap (fun pr =>
        if pr.1.length < s.length then reMatch fuel (RE.starG r) pr.1 pr.2
        else [])) ++ [(s, caps)]
    | RE.starL r =>
      (s, caps) :: ((reMatch fuel r s caps).flatMap (fun pr =>
        if pr.1.length < s.length then reMatch fuel (RE.starL r) pr.1 pr.2
        else []))
    | RE.grp r =>
      (reMatch fuel r s caps).map
        (fun pr => (pr.1, pr.2 ++ [s.take (s.length - pr.1.length)]))
    | RE.look r => if (reMatch fuel r s caps).isEmpty then [] else [(s, caps)]
    | RE.eos => if s.isEmpty || s = ['\n'] then [(s, caps)] else []

/-- Fuel passed to the matcher; see the comment on `RE`. -/
def matchFuel (s : List Char) : Nat := 4 * s.length + 64

/-- Scan of `re.findall`: try a match at each position left to right;
on success emit the captures and continue right after the consumed
text (advancing one character on a zero-width match, which no pattern
of this file produces). -/
def reFindAllGo (re : RE) : Nat → List Char → List (List (List Char))
  | 0, _ => []
  | Nat.succ n, s =>
    match reMatch (matchFuel s) re s [] with
    | pr :: _ =>
      if pr.1.length < s.length then pr.2 :: reFindAllGo re n pr.1
      else pr.2 :: reFindAllGo re n (s.drop 1)
    | [] =>
      match s with
      | [] => []
      | _ :: rest => reFindAllGo re n rest

/-- Python `re.findall(pattern, s)`: the capture lists of every
non-overlapping match, left to right. -/
def reFindAll (re : RE) (s : List Char) : List (List (List Char)) :=
  reFindAllGo re (s.length + 1) s

/-- Python `re.search(pattern, s)`: captures of the leftmost match. -/
def reSearchGo (re : RE) : Nat → List Char → Option (List (List Char))
  | 0, _ => none
  | Nat.succ n, s =>
    match reMatch (matchFuel s) re s [] with
    | pr :: _ => some pr.2
    | [] =>
      match s with
      | [] => none
      | _ :: rest => reSearchGo re n rest

/-- Python `re.search`. -/
def reSearch (re : RE) (s : List Char) : Option (List (List Char)) :=
  reSearchGo re (s.length + 1) s

/-! ### The regex literals used by the source, as `RE` trees -/

/-- Literal pattern text. -/
def reStr (s : String) : RE := RE.lit s.data

/-- Sequence of patterns. -/
def reSeqList : List RE → RE
  | [] => RE.lit []
  | [r] => r
  | r :: s :: rest => RE.seq r (reSeqList (s :: rest))

/-- Regex `\s*`. -/
def wsStar : RE := RE.starG (RE.cls isPySpace)

/-- Regex `\s+`. -/
def wsPlus : RE := RE.seq (RE.cls isPySpace) wsStar

/-- Regex `\S+`. -/
def nonWsPlus : RE :=
  RE.seq (RE.cls (fun c => !(isPySpace c))) (RE.starG (RE.cls (fun c => !(isPySpace c))))

/-- Regex `\w+`. -/
def wordPlus : RE :=
  RE.seq (RE.cls isWordChar) (RE.starG (RE.cls isWordChar))

/-- Regex `.` under `re.DOTALL`. -/
def anyDotall : RE := RE.cls (fun _ => true)

/-- Regex `.` without `re.DOTALL` (anything but a newline). -/
def anyNoNl : RE := RE.cls (fun c => !(c = '\n'))

/-- Regex character class `['"]`. -/
def quoteCls : RE := RE.cls (fun c => c = '\'' || c = '\"')

/-- Regex `[^'"]+`. -/
def notQuotePlus : RE :=
  RE.seq (RE.cls (fun c => !(c = '\'' || c = '\"')))
    (RE.starG (RE.cls (fun c => !(c = '\'' || c = '\"'))))

/-- Source `_parse_filename_format` pattern
`FILENAME:\s*(\S+\.spec\.ts)\s*\n(.*?)(?=FILENAME:|$)` (DOTALL). -/
def reFILENAME : RE :=
  reSeqList [reStr "FILENAME:", wsStar,
    RE.grp (RE.seq nonWsPlus (reStr ".spec.ts")), wsStar, reStr "\n",
    RE.grp (RE.starL anyDotall), RE.look (RE.alt (reStr "FILENAME:") RE.eos)]

/-- Source `_parse_hash_format` pattern
`####\s*(\S+\.spec\.ts)\s*\n```typescript\s*\n(.*?)\n``` ` (DOTALL). -/
def reHASH : RE :=
  reSeqList [reStr "####", wsStar,
    RE.grp (RE.seq nonWsPlus (reStr ".spec.ts")), wsStar, reStr "\n",
    reStr "```typescript", wsStar, reStr "\n",
    RE.grp (RE.starL anyDotall), reStr "\n```"]

/-- Source `_parse_markdown_format` strategy-1 pattern
`(\w+\.spec\.ts):\s*\n```typescript\s*\n(.*?)\n``` ` (DOTALL). -/
def reNAMECOLON : RE :=
  reSeqList [RE.grp (RE.seq wordPlus (reStr ".spec.ts")), reStr ":",
    wsStar, reStr "\n", reStr "```typescript", wsStar, reStr "\n",
    RE.grp (RE.starL anyDotall), reStr "\n```"]

/-- Fenced-block pattern of `_parse_markdown_format` strategy 2 and of
`_parse_by_content_mapping`:
` ```(?:typescript|javascript|ts|js)\s*\n(.*?)\n``` ` (DOTALL). -/
def reFENCE : RE :=
  reSeqList [reStr "```",
    RE.alt (reStr "typescript")
      (RE.alt (reStr "javascript") (RE.alt (reStr "ts") (reStr "js"))),
    wsStar, reStr "\n", RE.grp (RE.starL anyDotall), reStr "\n```"]

/-- Backward-search pattern `(\w+\.spec\.ts)` of `_parse_markdown_format`. -/
def reSPECNAME : RE := RE.grp (RE.seq wordPlus (reStr ".spec.ts"))

/-- Import pattern `import\s+.*?\s+from\s+['"]([^'"]+)['"]`. -/
def reIMP1 : RE :=
  reSeqList [reStr "import", wsPlus, RE.starL anyNoNl, wsPlus,
    reStr "from", wsPlus, quoteCls, RE.grp notQuotePlus, quoteCls]

/-- Import pattern `import\s+['"]([^'"]+)['"]`. -/
def reIMP2 : RE :=
  reSeqList [reStr "import", wsPlus, quoteCls, RE.grp notQuotePlus, quoteCls]

/-- Import pattern `require\(['"]([^'"]+)['"]\)`. -/
def reIMP3 : RE :=
  reSeqList [reStr "require(", quoteCls, RE.grp notQuotePlus, quoteCls, reStr ")"]

/-- Import pattern `from\s+['"]([^'"]+)['"]`. -/
def reIMP4 : RE :=
  reSeqList [reStr "from", wsPlus, quoteCls, RE.grp notQuotePlus, quoteCls]

/-- Route pattern `path=['"]([^'"]+)['"]`. -/
def reROUTE1 : RE := reSeqList [reStr "path=", quoteCls, RE.grp notQuotePlus, quoteCls]

/-- Route pattern `to=['"]([^'"]+)['"]`. -/
def reROUTE2 : RE := reSeqList [reStr "to=", quoteCls, RE.grp notQuotePlus, quoteCls]

/-- Route pattern `href=['"]([^'"]+)['"]`. -/
def reROUTE3 : RE := reSeqList [reStr "href=", quoteCls, RE.grp notQuotePlus, quoteCls]

/-- Route pattern `Route.*path=['"]([^'"]+)['"]`. -/
def reROUTE4 : RE :=
  reSeqList [reStr "Route", RE.starG anyNoNl, reStr "path=", quoteCls,
    RE.grp notQuotePlus, quoteCls]

/-- Route pattern `navigate\(['"]([^'"]+)['"]\)`. -/
def reROUTE5 : RE :=
  reSeqList [reStr "navigate(", quoteCls, RE.grp notQuotePlus, quoteCls, reStr ")"]

/-- Captures of a one-group pattern over a text, as strings. -/
def findAll1 (re : RE) (s : List Char) : List String :=
  (reFindAll re s).filterMap (fun caps => caps.head?.map String.mk)

/-- Captures of a two-group pattern over a text, as string pairs. -/
def findAll2 (re : RE) (s : List Char) : List (String × String) :=
  (reFindAll re s).filterMap (fun caps =>
    match caps with
    | [a, b] => some (String.mk a, String.mk b)
    | _ => none)

/-! ### Embedded source functions -/

/-- Source `_extract_imports` (lines 587-603): run the four import
patterns in order, concatenate the captures, and de-duplicate.  The
source de-duplicates through `list(set(imports))`, whose order is not
specified by Python; the embedding keeps first occurrences, a choice no
theorem below depends on. -/
def extractImports (content : String) : List String :=
  dedupFirst (findAll1 reIMP1 content.data ++ findAll1 reIMP2 content.data ++
    findAll1 reIMP3 content.data ++ findAll1 reIMP4 content.data)

/-- Source `_extract_routes` (lines 628-645): run the five route
patterns in order, concatenate, de-duplicate (`list(set(routes))`,
same order caveat as `extractImports`). -/
def extractRoutes (content : String) : List String :=
  dedupFirst (findAll1 reROUTE1 content.data ++ findAll1 reROUTE2 content.data ++
    findAll1 reROUTE3 content.data ++ findAll1 reROUTE4 content.data ++
    findAll1 reROUTE5 content.data)

/-- Source `_classify_file_role` (lines 605-626): priority rules on the
lowercased filename; the lowercased content is computed but never
consulted, and the imports argument is unused, exactly as in the
source. -/
def classifyFileRole (filename content : String) (imports : List String) : String :=
  let filenameLower := String.mk (toLowerL filename.data)
  let _contentLower := String.mk (toLowerL content.data)
  let _imports := imports
  if strContains filenameLower "route" || strContains filenameLower "router" then "Route"
  else if strContains filenameLower "api" || strContains filenameLower "service" then "API"
  else if [".tsx", ".jsx", ".vue"].any (fun ext => strContains filenameLower ext) then "Component"
  else if strContains filenameLower "form" || strContains filenameLower "input" then "Form"
  else "Other"

/-- Directed graph as held by `networkx.DiGraph` in the source: node
list and edge list, both without duplicates, in insertion order. -/
structure DepGraph where
  nodes : List String
  edges : List (String × String)
deriving DecidableEq

/-- `networkx` `add_node`: append the node if absent. -/
def addNode (g : DepGraph) (n : String) : DepGraph :=
  if n ∈ g.nodes then g else { g with nodes := g.nodes ++ [n] }

/-- `networkx` `add_edge`: add the missing endpoints as nodes, then the
edge if absent. -/
def addEdge (g : DepGraph) (a b : String) : DepGraph :=
  if (a, b) ∈ (addNode (addNode g a) b).edges then addNode (addNode g a) b
  else { addNode (addNode g a) b with
         edges := (addNode (addNode g a) b).edges ++ [(a, b)] }

/-- Basenames of a collected file list (files are `(path, content)`
pairs; the collector read the content, so the re-read in the source
loop is modelled as already available). -/
def fileBasenames (files : List (String × String)) : List String :=
  files.map (fun f => basename f.1)

/-- Source suffix check `imp.endswith(('.tsx', '.jsx', '.ts', '.js'))`. -/
def isSourceImport (imp : String) : Bool :=
  [".tsx", ".jsx", ".ts", ".js"].any (fun suf => suf.data.isSuffixOf imp.data)

/-- Edge-adding loop of `_build_dependency_graph` (lines 557-562): for
every import that looks like a source file and whose basename is among
the collected basenames, add an edge from the current file. -/
def addImportEdges (files : List (String × String)) (filename : String)
    (g : DepGraph) (imports : List String) : DepGraph :=
  imports.foldl (fun g2 imp =>
    if isSourceImport imp then
      let target := basename imp
      if target ∈ fileBasenames files then addEdge g2 filename target else g2
    else g2) g

/-- Body of the per-file loop of `_build_dependency_graph`
(lines 541-577): add the node, the import edges, the role and the
routes of one file. -/
def processFile (files : List (String × String))
    (acc : DepGraph × List (String × String) × List (String × List String))
    (file : String × String) :
    DepGraph × List (String × String) × List (String × List String) :=
  let filename := basename file.1
  let imports := extractImports file.2
  let g := addImportEdges files filename (addNode acc.1 filename) imports
  let roles := setAssoc acc.2.1 filename (classifyFileRole filename file.2 imports)
  let routes := extractRoutes file.2
  let routeMap := if routes.isEmpty then acc.2.2 else setAssoc acc.2.2 filename routes
  (g, roles, routeMap)

/-- Source `_build_dependency_graph` (lines 532-585): fold the per-file
loop over the collected files, returning the graph, the role map and
the route map. -/
def buildDependencyGraph (files : List (String × String)) :
    DepGraph × List (String × String) × List (String × List String) :=
  files.foldl (processFile files) (⟨[], []⟩, [], [])

/-- Route/page slice of the `analysis` dict consumed by
`_extract_features` (which reads only `analysis["routes"]` and
`analysis["pages"]`). -/
structure Analysis where
  routes : List String
  pages : List String
deriving DecidableEq

/-- Source comprehension
`any(kw in route.lower() or kw in page.lower() for route in routes for page in pages)`:
note the nested generators range over the Cartesian product of routes
and pages. -/
def anyRoutePageKw (a : Analysis) (kw : String) : Bool :=
  a.routes.any (fun route => a.pages.any (fun page =>
    containsL (toLowerL route.data) kw.data || containsL (toLowerL page.data) kw.data))

/-- Source comprehension
`any(kw1 in route.lower() or kw2 in route.lower() ... for route in routes)`. -/
def anyRouteKw (a : Analysis) (kws : List String) : Bool :=
  a.routes.any (fun route => kws.any (fun kw => containsL (toLowerL route.data) kw.data))

/-- Source `_extract_features` (lines 1583-1643): the fixed checklist of
feature tags, appended in source order. -/
def extractFeatures (a : Analysis) : List String :=
  (if anyRoutePageKw a "dashboard" then ["Dashboard Management"] else []) ++
  (if anyRoutePageKw a "create" then ["Create Operations"] else []) ++
  (if anyRoutePageKw a "edit" then ["Edit Operations"] else []) ++
  (if anyRoutePageKw a "delete" then ["Delete Operations"] else []) ++
  (if anyRoutePageKw a "project" then ["Project Management"] else []) ++
  (if anyRouteKw a ["user", "profile"] then ["User Management"] else []) ++
  (if anyRoutePageKw a "content" then ["Content Management"] else []) ++
  (if anyRouteKw a ["file", "upload", "download"] then ["File Management"] else []) ++
  (if anyRouteKw a ["search", "filter"] then ["Search and Filtering"] else []) ++
  (if anyRouteKw a ["setting", "config"] then ["Settings and Configuration"] else []) ++
  (if anyRouteKw a ["cart", "checkout", "order"] then ["E-commerce"] else []) ++
  (if anyRouteKw a ["blog", "post", "article"] then ["Blog/Content Publishing"] else []) ++
  (if anyRouteKw a ["analytics", "report", "stats"] then ["Analytics and Reporting"] else []) ++
  (if anyRouteKw a ["message", "chat", "notification"] then ["Communication"] else []) ++
  (if anyRouteKw a ["calendar", "schedule", "event"] then ["Calendar/Scheduling"] else [])

/-! ### The Resilient Artifact Extractor cascade -/

/-- Strip a candidate content and drop it when empty, as every strategy
does before saving (`content = content.strip(); if content:`). -/
def stripNonEmpty (p : List Char) : Option String :=
  let c := pyStripL p
  if c.isEmpty then none else some (String.mk c)

/-- Source `_parse_filename_format` (lines 1017-1030): the
`FILENAME:` matches with non-empty stripped content, in order, as
(filename, saved content) pairs. -/
def parseFilenameFormat (t : String) : List (String × String) :=
  (reFindAll reFILENAME t.data).filterMap (fun caps =>
    match caps with
    | [fn, content] => (stripNonEmpty content).map (fun c => (String.mk fn, c))
    | _ => none)

/-- Source `_parse_hash_format` (lines 1032-1045). -/
def parseHashFormat (t : String) : List (String × String) :=
  (reFindAll reHASH t.data).filterMap (fun caps =>
    match caps with
    | [fn, content] => (stripNonEmpty content).map (fun c => (String.mk fn, c))
    | _ => none)

/-- Strategy 1 of `_parse_markdown_format` (lines 1051-1060):
`filename.spec.ts:` followed by a typescript fence. -/
def parseMarkdownInline (t : String) : List (String × String) :=
  (reFindAll reNAMECOLON t.data).filterMap (fun caps =>
    match caps with
    | [fn, content] => (stripNonEmpty content).map (fun c => (String.mk fn, c))
    | _ => none)

/-- The `response_text[:response_text.find(block_content)]` slice of
`_parse_markdown_format`: text before the FIRST occurrence of the
block content anywhere in the text (the source quirk is kept); the
`find = -1` branch would drop the last character, as `text[:-1]` does,
but is unreachable because the block is a substring of the text. -/
def textBefore (t block : List Char) : List Char :=
  match findSubIdx t block with
  | some i => t.take i
  | none => t.dropLast

/-- Backward filename search of `_parse_markdown_format` strategy 2
(lines 1066-1078): scan the last ten lines before the block, in
reverse, for the first line containing `.spec.ts` whose
`(\w+\.spec\.ts)` search succeeds. -/
def backwardFilename (t block : List Char) : Option String :=
  ((splitOnNl (textBefore t block)).reverse.take 10).findSome? (fun line =>
    if containsL line (".spec.ts".data) then
      match reSearch reSPECNAME line with
      | some caps => caps.head?.map String.mk
      | none => none
    else none)

/-- Strategy 2 of `_parse_markdown_format` (lines 1062-1088): every
fenced block, named by the backward search or by the positional
placeholder `test_<i+1>.spec.ts`. -/
def parseMarkdownBare (t : String) : List (String × String) :=
  (((reFindAll reFENCE t.data).filterMap (fun caps => caps.head?)).enum).filterMap
    (fun pr =>
      let filename :=
        match backwardFilename t.data pr.2 with
        | some fn => fn
        | none => "test_" ++ toString (pr.1 + 1) ++ ".spec.ts"
      (stripNonEmpty pr.2).map (fun c => (filename, c)))

/-- Source `_parse_markdown_format` (lines 1047-1090): strategy 2 runs
only when strategy 1 saved nothing (`if not files_saved:` over the
function-local list). -/
def parseMarkdownFormat (t : String) : List (String × String) :=
  let inline := parseMarkdownInline t
  if inline.isEmpty then parseMarkdownBare t else inline

/-- The hand-authored expected-filename table of
`_parse_by_content_mapping` (lines 1097-1102), in dict insertion
order. -/
def expectedFiles : List (String × List String) :=
  [("visual.spec.ts",
      ["visual", "responsive", "viewport", "theme", "dark", "light", "mobile", "desktop"]),
   ("flow.spec.ts",
      ["flow", "login", "navigation", "user", "authentication", "wizard", "form"]),
   ("component.spec.ts",
      ["component", "interactive", "button", "modal", "dropdown", "form", "input"]),
   ("accessibility.spec.ts",
      ["accessibility", "aria", "keyboard", "focus", "screen reader", "tab"])]

/-- Source `_parse_by_content_mapping` (lines 1092-1129): score every
fenced block against the expected-filename keyword table (strictly
better scores win, ties keep the earlier table entry, all-zero scores
fall back to the positional placeholder). -/
def parseByContentMapping (t : String) : List (String × String) :=
  (((reFindAll reFENCE t.data).filterMap (fun caps => caps.head?)).enum).filterMap
    (fun pr =>
      let contentLower := toLowerL pr.2
      let best := expectedFiles.foldl (fun (acc : Option String × Nat) fi =>
        let score := (fi.2.filter (fun ind => containsL contentLower ind.data)).length
        if acc.2 < score then (some fi.1, score) else acc) (none, 0)
      let filename :=
        match best.1 with
        | some fn => fn
        | none => "test_" ++ toString (pr.1 + 1) ++ ".spec.ts"
      (stripNonEmpty pr.2).map (fun c => (filename, c)))

/-- The chronological list of `_save_file` calls made by
`_parse_test_files` (lines 985-1015): the three leading strategies run
unconditionally, and the content-mapping fallback runs when fewer than
four saves (counted with repetition, as the source counts the
un-deduplicated `files_saved` list) have happened. -/
def cascadeSaves (t : String) : List (String × String) :=
  let base := parseFilenameFormat t ++ parseHashFormat t ++ parseMarkdownFormat t
  if base.length < 4 then base ++ parseByContentMapping t else base

/-- The on-disk test-output directory contents: filename to content. -/
abbrev Store := List (String × String)

/-- Source `_parse_test_files` (lines 985-1015): the returned
`files_saved` list after `list(dict.fromkeys(...))`, together with the
final on-disk store, in which each `_save_file` call overwrote any
earlier file of the same name. -/
def parseTestFiles (t : String) : List String × Store :=
  let saves := cascadeSaves t
  (dedupFirst (saves.map Prod.fst),
   saves.foldl (fun st c => setAssoc st c.1 c.2) [])

/-! ### Flow document parser and validator -/

/-- A user-flow record as built by `_parse_user_flows`: the dict
`{'name': ..., 'content': ..., 'filename': ...}`. -/
structure FlowRec where
  name : String
  content : String
  filename : String
deriving DecidableEq

/-- Source `_generate_flow_filename` (lines 138-146): lowercase,
spaces to underscores, drop colons, hyphens to underscores, collapse
doubled underscores once, append `.spec.ts`. -/
def generateFlowFilename (flowName : String) : String :=
  let f1 := String.mk (toLowerL flowName.data)
  let f2 := pyReplace f1 " " "_"
  let f3 := pyReplace f2 ":" ""
  let f4 := pyReplace f3 "-" "_"
  let f5 := pyReplace f4 "__" "_"
  f5 ++ ".spec.ts"

/-- The heading test of `_parse_user_flows`:
`line.strip().startswith('## Flow:')`. -/
def isFlowHeading (line : String) : Bool :=
  List.isPrefixOf ("## Flow:".data) (pyStripL line.data)

/-- Loop of `_parse_user_flows` (lines 114-133), with the running
`current_flow` made explicit; a previous flow is emitted when a new
heading starts, and the last one at end of input, so the emission order
is the source's append order. -/
def parseFlowsGo : Option FlowRec → List String → List FlowRec
  | cur, [] =>
    match cur with
    | some fl => [fl]
    | none => []
  | cur, line :: rest =>
    let l := pyStrip line
    if isFlowHeading line then
      let flowName := pyStrip (pyReplace l "## Flow:" "")
      let started : FlowRec :=
        { name := flowName, content := l ++ "\n",
          filename := generateFlowFilename flowName }
      match cur with
      | some fl => fl :: parseFlowsGo (some started) rest
      | none => parseFlowsGo (some started) rest
    else
      match cur with
      | some fl =>
        parseFlowsGo (some { fl with content := fl.content ++ l ++ "\n" }) rest
      | none => parseFlowsGo none rest

/-- Source `_parse_user_flows` (lines 108-136). -/
def parseUserFlows (userFlowsContent : String) : List FlowRec :=
  parseFlowsGo none (pyLines userFlowsContent)

/-- Source `_is_valid_test_content` (lines 1738-1748). -/
def isValidTestContent (content : String) : Bool :=
  if content = "" || (pyStripL content.data).length < 100 then false
  else
    let hasImports := strContains content "import \x7b test, expect \x7d"
    let hasTests := strContains content "test(" || strContains content "test.describe"
    let hasClosing := content.data.count (Char.ofNat 123) = content.data.count (Char.ofNat 125)
    hasImports && (hasTests && hasClosing)

/-! ### Lemmas about de-duplication and the store -/

theorem mem_dedupFirstAux [DecidableEq α] (l seen : List α) (x : α) :
    x ∈ dedupFirstAux seen l ↔ x ∈ l ∧ x ∉ seen := by
  induction l generalizing seen with
  | nil => simp [dedupFirstAux]
  | cons y rest ih =>
    simp only [dedupFirstAux]
    by_cases hy : y ∈ seen
    · rw [if_pos hy, ih]
      constructor
      · rintro ⟨hr, hs⟩
        exact ⟨List.mem_cons_of_mem _ hr, hs⟩
      · rintro ⟨hm, hs⟩
        rcases List.mem_cons.mp hm with rfl | hr
        · exact absurd hy hs
        · exact ⟨hr, hs⟩
    · rw [if_neg hy]
      constructor
      · intro hm
        rcases List.mem_cons.mp hm with rfl | hr
        · exact ⟨List.mem_cons_self _ _, hy⟩
        · obtain ⟨hr2, hs2⟩ := (ih (y :: seen)).mp hr
          exact ⟨List.mem_cons_of_mem _ hr2,
            fun hx => hs2 (List.mem_cons_of_mem _ hx)⟩
      · rintro ⟨hm, hs⟩
        rcases List.mem_cons.mp hm with rfl | hr
        · exact List.mem_cons_self _ _
        · by_cases hxy : x = y
          · subst hxy
            exact List.mem_cons_self _ _
          · refine List.mem_cons_of_mem _ ((ih (y :: seen)).mpr ⟨hr, ?_⟩)
            intro hx
            rcases List.mem_cons.mp hx with h | h
            · exact hxy h
            · exact hs h

theorem mem_dedupFirst [DecidableEq α] (l : List α) (x : α) :
    x ∈ dedupFirst l ↔ x ∈ l := by
  simp [dedupFirst, mem_dedupFirstAux]

theorem nodup_dedupFirstAux [DecidableEq α] (l seen : List α) :
    (dedupFirstAux seen l).Nodup := by
  induction l generalizing seen with
  | nil => simp [dedupFirstAux]
  | cons y rest ih =>
    simp only [dedupFirstAux]
    by_cases hy : y ∈ seen
    · rw [if_pos hy]
      exact ih seen
    · rw [if_neg hy]
      refine List.nodup_cons.mpr ⟨?_, ih (y :: seen)⟩
      intro hmem
      exact ((mem_dedupFirstAux rest (y :: seen) y).mp hmem).2 (List.mem_cons_self y seen)

theorem nodup_dedupFirst [DecidableEq α] (l : List α) : (dedupFirst l).Nodup :=
  nodup_dedupFirstAux l []

theorem dedupFirstAux_congr_seen [DecidableEq α] (l : List α) :
    ∀ seen1 seen2 : List α, (∀ a, a ∈ seen1 ↔ a ∈ seen2) →
      dedupFirstAux seen1 l = dedupFirstAux seen2 l := by
  induction l with
  | nil =>
    intro _ _ _
    rfl
  | cons x rest ih =>
    intro seen1 seen2 h
    simp only [dedupFirstAux]
    by_cases hx : x ∈ seen1
    · rw [if_pos hx, if_pos ((h x).mp hx)]
      exact ih seen1 seen2 h
    · rw [if_neg hx, if_neg (fun hc => hx ((h x).mpr hc))]
      refine congrArg (x :: ·) (ih _ _ ?_)
      intro a
      simp only [List.mem_cons, h a]

theorem dedupFirstAux_cons_filter [DecidableEq α] (l : List α) :
    ∀ (seen : List α) (x : α),
      dedupFirstAux (x :: seen) l = dedupFirstAux seen (l.filter (fun y => y ≠ x)) := by
  induction l with
  | nil =>
    intro _ _
    rfl
  | cons y rest ih =>
    intro seen x
    by_cases hyx : y = x
    · subst hyx
      have hfil : (y :: rest).filter (fun z => z ≠ y) = rest.filter (fun z => z ≠ y) := by
        simp [List.filter_cons]
      rw [hfil]
      simp only [dedupFirstAux, if_pos (List.mem_cons_self y seen)]
      exact ih seen y
    · have hfil : (y :: rest).filter (fun z => z ≠ x) = y :: rest.filter (fun z => z ≠ x) := by
        simp [List.filter_cons, hyx]
      rw [hfil]
      by_cases hys : y ∈ seen
      · simp only [dedupFirstAux, if_pos (List.mem_cons_of_mem x hys), if_pos hys]
        exact ih seen x
      · have h1 : y ∉ x :: seen := by
          intro hc
          rcases List.mem_cons.mp hc with h | h
          · exact hyx h
          · exact hys h
        simp only [dedupFirstAux, if_neg h1, if_neg hys]
        refine congrArg (y :: ·) ?_
        calc dedupFirstAux (y :: x :: seen) rest
            = dedupFirstAux (x :: y :: seen) rest := by
              refine dedupFirstAux_congr_seen rest _ _ (fun a => ?_)
              simp only [List.mem_cons]
              tauto
          _ = dedupFirstAux (y :: seen) (rest.filter (fun z => z ≠ x)) := ih (y :: seen) x

theorem dedupFirst_cons [DecidableEq α] (x : α) (l : List α) :
    dedupFirst (x :: l) = x :: dedupFirst (l.filter (fun y => y ≠ x)) := by
  simp only [dedupFirst, dedupFirstAux, if_neg (List.not_mem_nil x)]
  exact congrArg (x :: ·) (dedupFirstAux_cons_filter l [] x)

/-- The first-seen-wins list in the words of the de-duplication law:
the first occurrence of each element keeps its position and every
later duplicate of it is dropped before the rest is de-duplicated.
This recursion determines the keep-first list uniquely (a keep-last
de-duplication violates it on any list with a repeated element). -/
def firstSeenList [DecidableEq α] : List α → List α
  | [] => []
  | x :: rest => x :: firstSeenList (rest.filter (fun y => y ≠ x))
termination_by l => l.length
decreasing_by
  simp only [List.length_cons]
  exact Nat.lt_succ_of_le (List.length_filter_le _ rest)

theorem dedupFirst_eq_firstSeenList [DecidableEq α] (l : List α) :
    dedupFirst l = firstSeenList l := by
  have key : ∀ n (l2 : List α), l2.length ≤ n → dedupFirst l2 = firstSeenList l2 := by
    intro n
    induction n with
    | zero =>
      intro l2 hl
      have h0 : l2 = [] := List.length_eq_zero.mp (Nat.le_zero.mp hl)
      subst h0
      simp [dedupFirst, dedupFirstAux, firstSeenList]
    | succ n ihn =>
      intro l2 hl
      cases l2 with
      | nil => simp [dedupFirst, dedupFirstAux, firstSeenList]
      | cons x rest =>
        rw [dedupFirst_cons]
        rw [show firstSeenList (x :: rest) =
            x :: firstSeenList (rest.filter (fun y => y ≠ x)) from by
          simp [firstSeenList]]
        refine congrArg (x :: ·) (ihn _ ?_)
        have hrest : rest.length ≤ n := by
          simp only [List.length_cons] at hl
          omega
        exact Nat.le_trans (List.length_filter_le _ rest) hrest
  exact key l.length l (Nat.le_refl _)

theorem lookupAssoc_setAssoc [DecidableEq α] (st : List (α × β)) (k k2 : α) (v : β) :
    lookupAssoc (setAssoc st k v) k2 = if k = k2 then some v else lookupAssoc st k2 := by
  induction st with
  | nil => simp [setAssoc, lookupAssoc]
  | cons p rest ih =>
    obtain ⟨k0, v0⟩ := p
    by_cases h0 : k0 = k
    · subst h0
      by_cases h2 : k0 = k2 <;> simp [setAssoc, lookupAssoc, h2]
    · by_cases h2 : k0 = k2
      · subst h2
        have : ¬ k = k0 := fun h => h0 h.symm
        simp [setAssoc, lookupAssoc, h0, this]
      · simp [setAssoc, lookupAssoc, h0, h2, ih]

theorem lookupAssoc_foldl_setAssoc [DecidableEq α]
    (saves : List (α × β)) (st : List (α × β)) (k : α) :
    lookupAssoc (saves.foldl (fun acc c => setAssoc acc c.1 c.2) st) k =
      match lastAssoc saves k with
      | some v => some v
      | none => lookupAssoc st k := by
  induction saves generalizing st with
  | nil => simp [lastAssoc]
  | cons p rest ih =>
    obtain ⟨k0, v0⟩ := p
    simp only [List.foldl_cons, ih, lastAssoc]
    cases h : lastAssoc rest k with
    | some v => rfl
    | none =>
      simp only [lookupAssoc_setAssoc]
      by_cases hk : k0 = k <;> simp [hk]

theorem lastAssoc_isSome_of_mem [DecidableEq α]
    (saves : List (α × β)) (k : α) (h : k ∈ saves.map Prod.fst) :
    (lastAssoc saves k).isSome = true := by
  induction saves with
  | nil => simp at h
  | cons p rest ih =>
    obtain ⟨k0, v0⟩ := p
    simp only [List.map_cons, List.mem_cons] at h
    simp only [lastAssoc]
    cases hrest : lastAssoc rest k with
    | some v => rfl
    | none =>
      rcases h with h | h
      · simp [h.symm]
      · have := ih h
        rw [hrest] at this
        simp at this

/-! ### Claim C9: the two-artifact scenario -/

/-- C9: on the input `"FILENAME: a.spec.ts\nhello\nFILENAME: b.spec.ts\nworld"`
the Resilient Artifact Extractor returns exactly the filenames
`a.spec.ts` and `b.spec.ts`, and the saved store maps `a.spec.ts` to
`"hello"` and `b.spec.ts` to `"world"` and nothing else. -/
theorem c9_two_artifact_scenario :
    parseTestFiles "FILENAME: a.spec.ts\nhello\nFILENAME: b.spec.ts\nworld" =
      (["a.spec.ts", "b.spec.ts"],
       [("a.spec.ts", "hello"), ("b.spec.ts", "world")]) := by
  decide

/-! ### Claim C3: classification of `UserForm.jsx` -/

/-- C3 counterexample: the Role Classifier does not classify
`UserForm.jsx` as `Form` (the claimed role), because the
UI-extension rule fires first. -/
theorem c3_counterexample_userform_not_form :
    ¬ (classifyFileRole "UserForm.jsx" "" [] = "Form") := by
  decide

/-- C3 amended: `UserForm.jsx` is classified `Component`: its name has
no `route`/`router`/`api`/`service` substring, and the `.jsx`
extension rule (rule 3) fires before the `form` filename rule
(rule 4). -/
theorem c3_amended_userform_component :
    classifyFileRole "UserForm.jsx" "" [] = "Component" := by
  decide

/-! ### Claim C5: the Dashboard feature and empty pages -/

/-- C5: evaluating `_extract_features` at the failing input.  With
routes `["/dashboard"]` and an empty pages list the source emits no
feature at all, because the nested comprehension
`for route in routes for page in pages` iterates over the Cartesian
product of the two lists and is vacuously false when `pages` is empty;
making `pages` non-empty (`["home"]`) yields `Dashboard Management`,
showing the route keyword alone is meant to suffice. -/
theorem c5_dashboard_empty_pages_evaluation :
    extractFeatures ⟨["/dashboard"], []⟩ = [] ∧
    extractFeatures ⟨["/dashboard"], ["home"]⟩ = ["Dashboard Management"] := by
  constructor
  · decide
  · decide

/-! ### Claim C4: when does the bare-fence strategy run? -/

/-- C4 counterexample: on
`"FILENAME: a.spec.ts\nhello\n```typescript\nworld\n```"` the
FILENAME-label strategy (an earlier strategy of the cascade) produces a
candidate, the inline-filename strategy produces none, and the
bare-fence-with-backward-search strategy still contributes the
candidate `("a.spec.ts", "world")` — refuting the claim that any
earlier strategy's success suppresses it. -/
theorem c4_counterexample_bare_fence_runs :
    parseFilenameFormat "FILENAME: a.spec.ts\nhello\n```typescript\nworld\n```" =
      [("a.spec.ts", "hello\n```typescript\nworld\n```")] ∧
    parseMarkdownInline "FILENAME: a.spec.ts\nhello\n```typescript\nworld\n```" = [] ∧
    parseMarkdownBare "FILENAME: a.spec.ts\nhello\n```typescript\nworld\n```" =
      [("a.spec.ts", "world")] ∧
    parseMarkdownFormat "FILENAME: a.spec.ts\nhello\n```typescript\nworld\n```" =
      [("a.spec.ts", "world")] := by
  refine ⟨by decide, by decide, by decide, by decide⟩

/-- C4 amended: the bare-fence-with-backward-search strategy runs only
when the inline-filename-then-fence strategy inside the same markdown
parser produced no result; whenever that inline strategy produced at
least one candidate, the markdown parser returns exactly the inline
candidates and the bare-fence strategy contributes nothing.  (Success
of the earlier FILENAME-label or hash-heading strategies of the
cascade does not suppress it.) -/
theorem c4_amended_inline_suppresses_bare (t : String)
    (h : parseMarkdownInline t ≠ []) :
    parseMarkdownFormat t = parseMarkdownInline t := by
  unfold parseMarkdownFormat
  rw [if_neg (by simpa [List.isEmpty_iff] using h)]

/-- C4 witness: a text on which the inline strategy fires, with the
amended theorem applied to it. -/
theorem c4_witness :
    parseMarkdownFormat "a.spec.ts:\n```typescript\nx\n```" =
      parseMarkdownInline "a.spec.ts:\n```typescript\nx\n```" :=
  c4_amended_inline_suppresses_bare "a.spec.ts:\n```typescript\nx\n```" (by decide)

/-! ### Claim C1: de-duplication and overwriting across the cascade -/

/-- C1 counterexample: on
`"FILENAME: a.spec.ts\nhello\n#### a.spec.ts\n```typescript\nworld\n```"`
the FILENAME-label strategy (earlier in the cascade) produces
`a.spec.ts` with one content, the hash-heading strategy (later)
produces `a.spec.ts` with content `"world"`, and the final on-disk
content for `a.spec.ts` is the later strategy's `"world"`, not the
earlier strategy's — refuting first-seen-wins for contents. -/
theorem c1_counterexample_later_content_wins :
    parseFilenameFormat
        "FILENAME: a.spec.ts\nhello\n#### a.spec.ts\n```typescript\nworld\n```" =
      [("a.spec.ts", "hello\n#### a.spec.ts\n```typescript\nworld\n```")] ∧
    parseHashFormat
        "FILENAME: a.spec.ts\nhello\n#### a.spec.ts\n```typescript\nworld\n```" =
      [("a.spec.ts", "world")] ∧
    lookupAssoc
        (parseTestFiles
          "FILENAME: a.spec.ts\nhello\n#### a.spec.ts\n```typescript\nworld\n```").2
        "a.spec.ts" = some "world" ∧
    ("hello\n#### a.spec.ts\n```typescript\nworld\n```" : String) ≠ "world" := by
  refine ⟨by decide, by decide, by decide, by decide⟩

/-- C1 amended: across the cascade the returned filename list is the
first-seen-wins de-duplication of the saved filenames — each filename
appears exactly once, at the position of its first (earlier-strategy)
save, as pinned by the `firstSeenList` recursion — but the content
stored on disk for a filename saved by several strategies is the
content of its LAST save in cascade order, because each save
overwrites the file. -/
theorem c1_amended_first_name_last_content (t : String) (fn : String) :
    ((parseTestFiles t).1).Nodup ∧
    (parseTestFiles t).1 = firstSeenList ((cascadeSaves t).map Prod.fst) ∧
    (fn ∈ (parseTestFiles t).1 ↔ fn ∈ (cascadeSaves t).map Prod.fst) ∧
    lookupAssoc (parseTestFiles t).2 fn = lastAssoc (cascadeSaves t) fn := by
  refine ⟨nodup_dedupFirst _, dedupFirst_eq_firstSeenList _, mem_dedupFirst _ _, ?_⟩
  show lookupAssoc ((cascadeSaves t).foldl (fun st c => setAssoc st c.1 c.2) []) fn = _
  rw [lookupAssoc_foldl_setAssoc]
  cases lastAssoc (cascadeSaves t) fn with
  | some v => rfl
  | none => rfl

/-! ### Claim C2: totality and shape of the extractor's result -/

/-- C2: for every input string the Resilient Artifact Extractor is a
total function (the embedding returns a value on all inputs, mirroring
that no operation of `_parse_test_files` raises) yielding a duplicate-
free, possibly empty list of saved filenames, each of which has a
saved content in the resulting store. -/
theorem c2_extractor_total_wellformed (t : String) :
    ((parseTestFiles t).1).Nodup ∧
    ∀ fn, fn ∈ (parseTestFiles t).1 →
      (lookupAssoc (parseTestFiles t).2 fn).isSome = true := by
  refine ⟨nodup_dedupFirst _, fun fn hfn => ?_⟩
  have hmem : fn ∈ (cascadeSaves t).map Prod.fst := (mem_dedupFirst _ _).mp hfn
  have hsome := lastAssoc_isSome_of_mem (cascadeSaves t) fn hmem
  show (lookupAssoc ((cascadeSaves t).foldl (fun st c => setAssoc st c.1 c.2) []) fn).isSome = true
  rw [lookupAssoc_foldl_setAssoc]
  cases h : lastAssoc (cascadeSaves t) fn with
  | some v => rfl
  | none => rw [h] at hsome; simp at hsome

/-- C2 witness: the properties instantiated on a concrete response
text and its extracted filename. -/
theorem c2_witness :
    (lookupAssoc (parseTestFiles "FILENAME: w.spec.ts\nok").2 "w.spec.ts").isSome = true :=
  (c2_extractor_total_wellformed "FILENAME: w.spec.ts\nok").2 "w.spec.ts" (by decide)

/-! ### Claim C6: the Artifact Validator pass predicate -/

/-- The pass predicate in the specification's words: stripped length
over the minimum threshold (the source threshold is 100 characters
after stripping), the required import-marker substring, at least one
test-invocation marker, and equal counts of opening and closing
braces. -/
def validatorSpecPass (c : String) : Bool :=
  decide (100 ≤ (pyStrip c).length) &&
  (strContains c "import \x7b test, expect \x7d" &&
   ((strContains c "test(" || strContains c "test.describe") &&
    decide (c.data.count (Char.ofNat 123) = c.data.count (Char.ofNat 125))))

theorem string_data_append (a b : String) : (a ++ b).data = a.data ++ b.data := by
  cases a
  cases b
  rfl

/-- C6: the Artifact Validator passes exactly when the four
specification conditions hold, and a passing content turned into one
with a single extra unmatched closing brace fails. -/
theorem c6_validator_iff_and_unbalanced (c : String) :
    (isValidTestContent c = validatorSpecPass c) ∧
    (isValidTestContent c = true → isValidTestContent (c ++ "\x7d") = false) := by
  constructor
  · by_cases hc : c = ""
    · subst hc
      decide
    · by_cases hlen : (pyStripL c.data).length < 100
      · have hnotle : ¬ (100 ≤ (pyStrip c).length) := by
          simpa [pyStrip, String.length] using Nat.not_le_of_lt hlen
        simp [isValidTestContent, validatorSpecPass, hc, hlen, hnotle]
      · have hle : 100 ≤ (pyStrip c).length := by
          simpa [pyStrip, String.length] using Nat.le_of_not_lt hlen
        simp [isValidTestContent, validatorSpecPass, hc, hlen, hle]
  · intro hvalid
    rw [isValidTestContent] at hvalid
    have hcount : c.data.count (Char.ofNat 123) = c.data.count (Char.ofNat 125) := by
      split at hvalid
      · exact absurd hvalid (by simp)
      · simp only [Bool.and_eq_true, decide_eq_true_eq] at hvalid
        exact hvalid.2.2
    have h123 : (c ++ "\x7d").data.count (Char.ofNat 123) = c.data.count (Char.ofNat 123) := by
      rw [string_data_append, List.count_append]
      have h0 : ("\x7d" : String).data.count (Char.ofNat 123) = 0 := by decide
      omega
    have h125 : (c ++ "\x7d").data.count (Char.ofNat 125) = c.data.count (Char.ofNat 125) + 1 := by
      rw [string_data_append, List.count_append]
      have h1 : ("\x7d" : String).data.count (Char.ofNat 125) = 1 := by decide
      omega
    rw [isValidTestContent]
    split
    · rfl
    · have hfalse : decide ((c ++ "\x7d").data.count (Char.ofNat 123) =
          (c ++ "\x7d").data.count (Char.ofNat 125)) = false := by
        rw [decide_eq_false_iff_not, h123, h125]
        omega
      simp [hfalse]
      intro _ _
      omega

/-- A concrete artifact content passing every validator condition. -/
def validatorWitnessContent : String :=
  "import \x7b test, expect \x7d from \"pw\";\ntest(\"a\", async () => \x7b\n  expect(2).toBe(2);\n\x7d);\npadding padding padding padding padding padding\n"

set_option maxRecDepth 10000 in
/-- C6 witness: the validator theorem applied to a concrete passing
content, showing the content with one extra closing brace fails. -/
theorem c6_witness :
    isValidTestContent (validatorWitnessContent ++ "\x7d") = false :=
  (c6_validator_iff_and_unbalanced validatorWitnessContent).2 (by decide)

/-! ### Claim C7: one flow per heading -/

/-- Literal reading of claim C7's counting unit: input lines that start
with the heading marker before any stripping. -/
def headingLinesLiteral (doc : String) : Nat :=
  ((pyLines doc).filter (fun l => List.isPrefixOf ("## Flow:".data) l.data)).length

theorem parseFlowsGo_length (lines : List String) :
    ∀ cur : Option FlowRec,
      (parseFlowsGo cur lines).length =
        (match cur with | some _ => 1 | none => 0) +
          (lines.filter isFlowHeading).length := by
  induction lines with
  | nil =>
    intro cur
    cases cur <;> simp [parseFlowsGo]
  | cons line rest ih =>
    intro cur
    rw [List.filter_cons]
    by_cases hh : isFlowHeading line
    · cases cur <;> simp [parseFlowsGo, hh, ih] <;> omega
    · cases cur <;> simp [parseFlowsGo, hh, ih]

/-- C7 counterexample: the document consisting of the single line
`"  ## Flow: A"` (heading marker preceded by spaces) has zero lines
that start with the heading marker, yet the parser yields one flow
record, because the source strips each line before the marker test. -/
theorem c7_counterexample_indented_heading :
    (parseUserFlows "  ## Flow: A").length = 1 ∧
    headingLinesLiteral "  ## Flow: A" = 0 := by
  constructor
  · decide
  · decide

/-- C7 amended: for every input document the Flow Document Parser
yields exactly one flow record per line WHOSE WHITESPACE-STRIPPED FORM
starts with `## Flow:`; in particular lines before the first such
heading are discarded and a document with none of them yields zero
flows without error. -/
theorem c7_amended_one_flow_per_stripped_heading (doc : String) :
    (parseUserFlows doc).length = ((pyLines doc).filter isFlowHeading).length := by
  have h := parseFlowsGo_length (pyLines doc) none
  simpa [parseUserFlows] using h

/-! ### Claim C10: flow contents consist of stripped lines -/

theorem dropWhile_head_not (p : α → Bool) (l : List α) :
    l.dropWhile p = [] ∨ ∃ c t, l.dropWhile p = c :: t ∧ p c = false := by
  induction l with
  | nil => exact Or.inl rfl
  | cons c rest ih =>
    by_cases hc : p c
    · simpa [List.dropWhile_cons, hc] using ih
    · exact Or.inr ⟨c, rest, by simp [List.dropWhile_cons, hc], by simpa using hc⟩

theorem dropWhile_of_head_false (p : α → Bool) (c : α) (t : List α)
    (h : p c = false) : (c :: t).dropWhile p = c :: t := by
  simp [List.dropWhile_cons, h]

theorem dropWhile_idem (p : α → Bool) (l : List α) :
    (l.dropWhile p).dropWhile p = l.dropWhile p := by
  rcases dropWhile_head_not p l with h | ⟨c, t, h, hc⟩
  · rw [h]
    rfl
  · rw [h]
    exact dropWhile_of_head_false p c t hc

theorem pyStripL_dropWhile_self (l : List Char) :
    (pyStripL l).dropWhile isPySpace = pyStripL l := by
  unfold pyStripL
  set A := l.dropWhile isPySpace with hA
  set B := A.reverse.dropWhile isPySpace with hB
  have hsplit : A.reverse = A.reverse.takeWhile isPySpace ++ B :=
    (List.takeWhile_append_dropWhile isPySpace A.reverse).symm
  have hAeq : A = B.reverse ++ (A.reverse.takeWhile isPySpace).reverse := by
    have := congrArg List.reverse hsplit
    simpa [List.reverse_append] using this
  cases hR : B.reverse with
  | nil => simp
  | cons c t =>
    rcases dropWhile_head_not isPySpace l with h0 | ⟨c2, t2, h0, hc2⟩
    · rw [← hA] at h0
      rw [h0, hR] at hAeq
      simp at hAeq
    · rw [← hA] at h0
      rw [h0, hR] at hAeq
      have hcc : c2 = c := by
        have := congrArg (fun x => x.head?) hAeq
        simpa using this
      exact dropWhile_of_head_false isPySpace c t (hcc ▸ hc2)

theorem pyStripL_idem (l : List Char) : pyStripL (pyStripL l) = pyStripL l := by
  conv_lhs => rw [pyStripL]
  rw [pyStripL_dropWhile_self]
  show ((pyStripL l).reverse.dropWhile isPySpace).reverse = pyStripL l
  unfold pyStripL
  rw [List.reverse_reverse, dropWhile_idem]

theorem mem_pyStripL (l : List Char) (c : Char) (h : c ∈ pyStripL l) : c ∈ l := by
  unfold pyStripL at h
  rw [List.mem_reverse] at h
  have h2 := (List.dropWhile_sublist isPySpace).mem h
  rw [List.mem_reverse] at h2
  exact (List.dropWhile_sublist isPySpace).mem h2

theorem splitOnNl_ne_nil (s : List Char) : splitOnNl s ≠ [] := by
  cases s with
  | nil => simp [splitOnNl]
  | cons c rest =>
    by_cases hc : c = '\n' <;> simp [splitOnNl, hc]

theorem headD_mem (l : List α) (d : α) (h : l ≠ []) : l.headD d ∈ l := by
  cases l with
  | nil => exact absurd rfl h
  | cons x rest => exact List.mem_cons_self x rest

theorem noNl_of_mem_splitOnNl (s : List Char) (p : List Char)
    (h : p ∈ splitOnNl s) : '\n' ∉ p := by
  induction s generalizing p with
  | nil =>
    simp [splitOnNl] at h
    simp [h]
  | cons c rest ih =>
    by_cases hc : c = '\n'
    · rw [show splitOnNl (c :: rest) = [] :: splitOnNl rest from by simp [splitOnNl, hc]] at h
      rcases List.mem_cons.mp h with rfl | h2
      · simp
      · exact ih p h2
    · rw [show splitOnNl (c :: rest) =
          (c :: (splitOnNl rest).headD []) :: (splitOnNl rest).tail from by
            simp [splitOnNl, hc]] at h
      rcases List.mem_cons.mp h with rfl | h2
      · intro hmem
        rcases List.mem_cons.mp hmem with he | hmem2
        · exact hc he.symm
        · exact ih _ (headD_mem _ _ (splitOnNl_ne_nil rest)) hmem2
      · exact ih p (List.mem_of_mem_tail h2)

theorem splitOnNl_append_line (p t : List Char) (h : '\n' ∉ p) :
    splitOnNl (p ++ '\n' :: t) = p :: splitOnNl t := by
  induction p with
  | nil => simp [splitOnNl]
  | cons c p2 ih =>
    have hc : ¬ c = '\n' := fun he => h (he ▸ List.mem_cons_self c p2)
    have hp2 : '\n' ∉ p2 := fun hm => h (List.mem_cons_of_mem c hm)
    rw [List.cons_append]
    rw [show splitOnNl (c :: (p2 ++ '\n' :: t)) =
        (c :: (splitOnNl (p2 ++ '\n' :: t)).headD []) ::
          (splitOnNl (p2 ++ '\n' :: t)).tail from by simp [splitOnNl, hc]]
    rw [ih hp2]
    rfl

/-- Concatenation of pieces, each followed by one newline: the shape of
every flow content built by `_parse_user_flows`. -/
def joinNl : List (List Char) → List Char
  | [] => []
  | p :: rest => p ++ '\n' :: joinNl rest

theorem joinNl_append_single (ls : List (List Char)) (p : List Char) :
    joinNl (ls ++ [p]) = joinNl ls ++ (p ++ ['\n']) := by
  induction ls with
  | nil => simp [joinNl]
  | cons q rest ih => simp [joinNl, ih]

theorem splitOnNl_joinNl (ls : List (List Char))
    (h : ∀ p ∈ ls, '\n' ∉ p) : splitOnNl (joinNl ls) = ls ++ [[]] := by
  induction ls with
  | nil => simp [joinNl, splitOnNl]
  | cons p rest ih =>
    rw [show joinNl (p :: rest) = p ++ '\n' :: joinNl rest from rfl]
    rw [splitOnNl_append_line p _ (h p (List.mem_cons_self p rest))]
    rw [ih (fun q hq => h q (List.mem_cons_of_mem p hq))]
    rfl

/-- A line already stripped and free of newlines. -/
def GoodPiece (p : List Char) : Prop := pyStripL p = p ∧ '\n' ∉ p

/-- The flow content is a newline-joined sequence of good pieces. -/
def ContentOK (fl : FlowRec) : Prop :=
  ∃ ls, fl.content.data = joinNl ls ∧ ∀ p ∈ ls, GoodPiece p

theorem goodPiece_strip (x : List Char) (hx : '\n' ∉ x) : GoodPiece (pyStripL x) :=
  ⟨pyStripL_idem x, fun h => hx (mem_pyStripL x '\n' h)⟩

theorem parseFlowsGo_contentOK (lines : List String) :
    ∀ cur : Option FlowRec,
      (∀ line ∈ lines, ('\n' : Char) ∉ line.data) →
      (∀ fl0, cur = some fl0 → ContentOK fl0) →
      ∀ fl ∈ parseFlowsGo cur lines, ContentOK fl := by
  induction lines with
  | nil =>
    intro cur _ hcur fl hfl
    cases cur with
    | none => simp [parseFlowsGo] at hfl
    | some fl0 =>
      simp [parseFlowsGo] at hfl
      exact hfl ▸ hcur fl0 rfl
  | cons line rest ih =>
    intro cur hnl hcur fl hfl
    have hline : ('\n' : Char) ∉ line.data := hnl line (List.mem_cons_self _ _)
    have hrest : ∀ l2 ∈ rest, ('\n' : Char) ∉ l2.data :=
      fun l2 h2 => hnl l2 (List.mem_cons_of_mem _ h2)
    have hstarted : ∀ name fname,
        ContentOK { name := name, content := pyStrip line ++ "\n", filename := fname } := by
      intro name fname
      refine ⟨[pyStripL line.data], ?_, ?_⟩
      · show (pyStrip line ++ "\n").data = _
        rw [string_data_append]
        simp [pyStrip, joinNl]
      · intro p hp
        rw [List.mem_singleton] at hp
        exact hp ▸ goodPiece_strip line.data hline
    by_cases hh : isFlowHeading line
    · cases cur with
      | some fl0 =>
        simp only [parseFlowsGo, hh, if_true] at hfl
        rcases List.mem_cons.mp hfl with rfl | h2
        · exact hcur fl rfl
        · refine ih (some _) hrest (fun fl1 h1 => ?_) fl h2
          cases h1
          exact hstarted _ _
      | none =>
        simp only [parseFlowsGo, hh, if_true] at hfl
        refine ih (some _) hrest (fun fl1 h1 => ?_) fl hfl
        cases h1
        exact hstarted _ _
    · rw [Bool.not_eq_true] at hh
      cases cur with
      | some fl0 =>
        simp only [parseFlowsGo, hh, Bool.false_eq_true, if_false] at hfl
        refine ih (some _) hrest (fun fl1 h1 => ?_) fl hfl
        cases h1
        obtain ⟨ls, hdata, hgood⟩ := hcur fl0 rfl
        refine ⟨ls ++ [pyStripL line.data], ?_, ?_⟩
        · show (fl0.content ++ pyStrip line ++ "\n").data = _
          rw [string_data_append, string_data_append, joinNl_append_single, hdata]
          simp [pyStrip]
        · intro p hp
          rcases List.mem_append.mp hp with hp1 | hp2
          · exact hgood p hp1
          · rw [List.mem_singleton] at hp2
            exact hp2 ▸ goodPiece_strip line.data hline
      | none =>
        simp only [parseFlowsGo, hh, Bool.false_eq_true, if_false] at hfl
        exact ih none hrest (fun fl1 h1 => by cases h1) fl hfl

/-- C10: for every input document, every line of the content of every
parsed flow record is an already-stripped line (it equals its own
whitespace-stripped form), mirroring that `_parse_user_flows` strips
each input line before accumulating it, so flow contents are not
verbatim copies of the input. -/
theorem c10_flow_content_lines_stripped (doc : String) (fl : FlowRec) (l : String)
    (hfl : fl ∈ parseUserFlows doc) (hl : l ∈ pyLines fl.content) :
    pyStrip l = l := by
  have hlinesOK : ∀ line ∈ pyLines doc, ('\n' : Char) ∉ line.data := by
    intro line hline
    obtain ⟨p, hp, rfl⟩ := List.mem_map.mp hline
    exact noNl_of_mem_splitOnNl doc.data p hp
  have hok : ContentOK fl :=
    parseFlowsGo_contentOK (pyLines doc) none hlinesOK (fun fl0 h => by cases h) fl hfl
  obtain ⟨ls, hdata, hgood⟩ := hok
  obtain ⟨p, hp, rfl⟩ := List.mem_map.mp hl
  rw [hdata] at hp
  rw [splitOnNl_joinNl ls (fun q hq => (hgood q hq).2)] at hp
  rcases List.mem_append.mp hp with hp1 | hp2
  · show String.mk (pyStripL p) = String.mk p
    rw [(hgood p hp1).1]
  · rw [List.mem_singleton] at hp2
    subst hp2
    rfl

/-- C10 witness: the theorem applied to a concrete document with an
indented line, a concrete parsed flow and a concrete content line. -/
theorem c10_witness : pyStrip "x" = "x" :=
  c10_flow_content_lines_stripped "## Flow: A\n  x "
    { name := "A", content := "## Flow: A\nx\n", filename := "a.spec.ts" } "x"
    (by decide) (by decide)

/-! ### Claim C8: no dangling edges in the dependency graph -/

/-- Every edge endpoint is a node. -/
def edgesClosed (g : DepGraph) : Prop :=
  ∀ e ∈ g.edges, e.1 ∈ g.nodes ∧ e.2 ∈ g.nodes

/-- Every node is the basename of a collected file. -/
def nodesFromFiles (files : List (String × String)) (g : DepGraph) : Prop :=
  ∀ n ∈ g.nodes, n ∈ fileBasenames files

theorem mem_addNode_nodes (g : DepGraph) (n m : String) :
    m ∈ (addNode g n).nodes ↔ m ∈ g.nodes ∨ m = n := by
  by_cases h : n ∈ g.nodes
  · simp only [addNode, if_pos h]
    exact ⟨Or.inl, fun hm => hm.elim id (fun he => he ▸ h)⟩
  · simp [addNode, if_neg h, List.mem_append]

theorem addNode_edges (g : DepGraph) (n : String) : (addNode g n).edges = g.edges := by
  unfold addNode
  split <;> rfl

theorem mem_addEdge_nodes (g : DepGraph) (a b m : String) :
    m ∈ (addEdge g a b).nodes ↔ m ∈ g.nodes ∨ m = a ∨ m = b := by
  have key : (addEdge g a b).nodes = (addNode (addNode g a) b).nodes := by
    unfold addEdge
    split <;> rfl
  rw [key, mem_addNode_nodes, mem_addNode_nodes]
  tauto

theorem mem_addEdge_edges (g : DepGraph) (a b : String) (e : String × String) :
    e ∈ (addEdge g a b).edges ↔ e ∈ g.edges ∨ e = (a, b) := by
  have hE : (addNode (addNode g a) b).edges = g.edges := by
    rw [addNode_edges, addNode_edges]
  unfold addEdge
  split
  · next h =>
    rw [hE] at h ⊢
    exact ⟨Or.inl, fun hm => hm.elim id (fun he => he ▸ h)⟩
  · show e ∈ (addNode (addNode g a) b).edges ++ [(a, b)] ↔ _
    rw [hE]
    simp [List.mem_append]

theorem edgesClosed_addNode (g : DepGraph) (n : String)
    (h : edgesClosed g) : edgesClosed (addNode g n) := by
  intro e he
  rw [addNode_edges] at he
  obtain ⟨h1, h2⟩ := h e he
  exact ⟨(mem_addNode_nodes g n e.1).mpr (Or.inl h1),
         (mem_addNode_nodes g n e.2).mpr (Or.inl h2)⟩

theorem edgesClosed_addEdge (g : DepGraph) (a b : String)
    (h : edgesClosed g) : edgesClosed (addEdge g a b) := by
  intro e he
  rcases (mem_addEdge_edges g a b e).mp he with hold | rfl
  · obtain ⟨h1, h2⟩ := h e hold
    exact ⟨(mem_addEdge_nodes g a b e.1).mpr (Or.inl h1),
           (mem_addEdge_nodes g a b e.2).mpr (Or.inl h2)⟩
  · exact ⟨(mem_addEdge_nodes g a b a).mpr (Or.inr (Or.inl rfl)),
           (mem_addEdge_nodes g a b b).mpr (Or.inr (Or.inr rfl))⟩

theorem nodesFromFiles_addNode (files : List (String × String)) (g : DepGraph)
    (n : String) (hn : n ∈ fileBasenames files)
    (h : nodesFromFiles files g) : nodesFromFiles files (addNode g n) := by
  intro m hm
  rcases (mem_addNode_nodes g n m).mp hm with h1 | rfl
  · exact h m h1
  · exact hn

theorem nodesFromFiles_addEdge (files : List (String × String)) (g : DepGraph)
    (a b : String) (ha : a ∈ fileBasenames files) (hb : b ∈ fileBasenames files)
    (h : nodesFromFiles files g) : nodesFromFiles files (addEdge g a b) := by
  intro m hm
  rcases (mem_addEdge_nodes g a b m).mp hm with h1 | rfl | rfl
  · exact h m h1
  · exact ha
  · exact hb

theorem addImportEdges_inv (files : List (String × String)) (filename : String)
    (hfn : filename ∈ fileBasenames files) (imports : List String) :
    ∀ g : DepGraph, edgesClosed g → nodesFromFiles files g →
      edgesClosed (addImportEdges files filename g imports) ∧
      nodesFromFiles files (addImportEdges files filename g imports) := by
  induction imports with
  | nil => exact fun g h1 h2 => ⟨h1, h2⟩
  | cons imp rest ih =>
    intro g h1 h2
    rw [show addImportEdges files filename g (imp :: rest) =
        addImportEdges files filename
          (if isSourceImport imp then
            (if basename imp ∈ fileBasenames files then addEdge g filename (basename imp)
             else g)
           else g) rest from rfl]
    split
    · split
      · next hb =>
        exact ih _ (edgesClosed_addEdge g filename (basename imp) h1)
          (nodesFromFiles_addEdge files g filename (basename imp) hfn hb h2)
      · exact ih g h1 h2
    · exact ih g h1 h2

theorem processFile_inv (files : List (String × String)) (file : String × String)
    (hfile : file ∈ files)
    (acc : DepGraph × List (String × String) × List (String × List String))
    (h1 : edgesClosed acc.1) (h2 : nodesFromFiles files acc.1) :
    edgesClosed (processFile files acc file).1 ∧
    nodesFromFiles files (processFile files acc file).1 := by
  have hfn : basename file.1 ∈ fileBasenames files :=
    List.mem_map_of_mem (fun f => basename f.1) hfile
  exact addImportEdges_inv files (basename file.1) hfn (extractImports file.2)
    (addNode acc.1 (basename file.1))
    (edgesClosed_addNode acc.1 (basename file.1) h1)
    (nodesFromFiles_addNode files acc.1 (basename file.1) hfn h2)

theorem foldl_processFile_inv (files : List (String × String)) (l : List (String × String))
    (hsub : ∀ f ∈ l, f ∈ files) :
    ∀ acc, edgesClosed acc.1 → nodesFromFiles files acc.1 →
      edgesClosed ((l.foldl (processFile files) acc).1) ∧
      nodesFromFiles files ((l.foldl (processFile files) acc).1) := by
  induction l with
  | nil => exact fun acc h1 h2 => ⟨h1, h2⟩
  | cons f rest ih =>
    intro acc h1 h2
    rw [List.foldl_cons]
    obtain ⟨h1a, h2a⟩ := processFile_inv files f (hsub f (List.mem_cons_self _ _)) acc h1 h2
    exact ih (fun f2 hf2 => hsub f2 (List.mem_cons_of_mem _ hf2)) _ h1a h2a

theorem mem_addImportEdges_nodes_mono (files : List (String × String))
    (filename : String) (imports : List String) :
    ∀ g : DepGraph, ∀ m ∈ g.nodes, m ∈ (addImportEdges files filename g imports).nodes := by
  induction imports with
  | nil => exact fun g m hm => hm
  | cons imp rest ih =>
    intro g m hm
    rw [show addImportEdges files filename g (imp :: rest) =
        addImportEdges files filename
          (if isSourceImport imp then
            (if basename imp ∈ fileBasenames files then addEdge g filename (basename imp)
             else g)
           else g) rest from rfl]
    split
    · split
      · exact ih _ m ((mem_addEdge_nodes _ _ _ m).mpr (Or.inl hm))
      · exact ih g m hm
    · exact ih g m hm

theorem mem_processFile_nodes_mono (files : List (String × String))
    (file : String × String)
    (acc : DepGraph × List (String × String) × List (String × List String))
    (m : String) (hm : m ∈ acc.1.nodes) : m ∈ (processFile files acc file).1.nodes :=
  mem_addImportEdges_nodes_mono files (basename file.1) (extractImports file.2)
    (addNode acc.1 (basename file.1)) m
    ((mem_addNode_nodes acc.1 (basename file.1) m).mpr (Or.inl hm))

theorem basename_mem_processFile_nodes (files : List (String × String))
    (file : String × String)
    (acc : DepGraph × List (String × String) × List (String × List String)) :
    basename file.1 ∈ (processFile files acc file).1.nodes :=
  mem_addImportEdges_nodes_mono files (basename file.1) (extractImports file.2)
    (addNode acc.1 (basename file.1)) (basename file.1)
    ((mem_addNode_nodes acc.1 (basename file.1) (basename file.1)).mpr (Or.inr rfl))

theorem foldl_processFile_nodes_mono (files : List (String × String))
    (l : List (String × String)) :
    ∀ acc m, m ∈ acc.1.nodes → m ∈ ((l.foldl (processFile files) acc).1).nodes := by
  induction l with
  | nil => exact fun acc m hm => hm
  | cons f rest ih =>
    intro acc m hm
    rw [List.foldl_cons]
    exact ih _ m (mem_processFile_nodes_mono files f acc m hm)

theorem foldl_processFile_covers (files : List (String × String))
    (l : List (String × String)) :
    ∀ acc, ∀ f ∈ l, basename f.1 ∈ ((l.foldl (processFile files) acc).1).nodes := by
  induction l with
  | nil =>
    intro acc f hf
    simp at hf
  | cons f0 rest ih =>
    intro acc f hf
    rw [List.foldl_cons]
    rcases List.mem_cons.mp hf with rfl | h2
    · exact foldl_processFile_nodes_mono files rest _ (basename f.1)
        (basename_mem_processFile_nodes files f acc)
    · exact ih _ f h2

/-- C8: for every collected file set, every edge of the dependency
graph joins two nodes of the graph (no dangling edges), every node is
the basename of a collected file, and every collected file contributes
its basename as a node. -/
theorem c8_graph_edges_closed (files : List (String × String)) :
    (∀ e ∈ (buildDependencyGraph files).1.edges,
        e.1 ∈ (buildDependencyGraph files).1.nodes ∧
        e.2 ∈ (buildDependencyGraph files).1.nodes) ∧
    (∀ n ∈ (buildDependencyGraph files).1.nodes, n ∈ fileBasenames files) ∧
    (∀ f ∈ files, basename f.1 ∈ (buildDependencyGraph files).1.nodes) := by
  obtain ⟨h1, h2⟩ := foldl_processFile_inv files files (fun f hf => hf)
    (⟨[], []⟩, [], []) (fun e he => absurd he (List.not_mem_nil e))
    (fun n hn => absurd hn (List.not_mem_nil n))
  exact ⟨h1, h2, fun f hf => foldl_processFile_covers files files _ f hf⟩

/-- A concrete two-file corpus producing one resolvable import edge. -/
def graphWitnessFiles : List (String × String) :=
  [("src/a.ts", "import x from \"./b.ts\";"), ("src/b.ts", "export const y = 1;")]

/-- C8 witness: the theorem applied to the concrete corpus and its
concrete edge `a.ts -> b.ts`. -/
theorem c8_witness :
    ("a.ts", "b.ts").1 ∈ (buildDependencyGraph graphWitnessFiles).1.nodes ∧
    ("a.ts", "b.ts").2 ∈ (buildDependencyGraph graphWitnessFiles).1.nodes :=
  (c8_graph_edges_closed graphWitnessFiles).1 ("a.ts", "b.ts") (by decide)
